import Mathlib

/-!
Verification of the image-resizer service core (src/src/main.cpp) against its
natural-language specification.

The base64 codec (lines 21-62 of main.cpp) is embedded faithfully from the
Boost components it uses:

* boost::archive::iterators::binary_from_base64 maps each character through a
  lookup table in which the 64 alphabet characters map to their six-bit value,
  the padding character maps to 0 (the table comment reads: render = as 0),
  and every other character raises dataflow_exception, which the enclosing
  try/catch of base64_decode rethrows as std::runtime_error.
* transform_width<.., 8, 6> regroups the six-bit values into bytes.  The
  std::vector range constructor keeps producing bytes while the base iterator
  has not reached the end; for a cleaned input of length 4k+1 the final fill
  dereferences the iterator at the position of the terminating character of
  the std::string buffer, which is not in the alphabet, so decoding fails.
  Lengths 4k+2 and 4k+3 succeed, discarding the leftover low bits of the last
  character.
* boost::trim removes leading and trailing std::isspace characters
  (space, tab, newline, vertical tab, form feed, carriage return); the two
  erase/remove passes then delete every newline and carriage return.

The OpenCV image layer (imdecode / resize with INTER_AREA / imencode) is not
part of this repository; it is modelled from the spec (section 4.3) below.
-/

namespace ImageResizer

/-- Characters treated as whitespace by boost::trim (std::isspace, C locale). -/
def isSpaceC (c : Char) : Bool :=
  c = ' ' || c = '\t' || c = '\n' || c.toNat = 11 || c.toNat = 12 || c = '\r'

/-- boost::trim: drop whitespace from both ends of the string. -/
def trimList (l : List Char) : List Char :=
  ((l.dropWhile isSpaceC).reverse.dropWhile isSpaceC).reverse

/-- The cleaning phase of base64_decode: trim, then erase every newline and
every carriage return (main.cpp lines 28-31). -/
def clean (s : List Char) : List Char :=
  ((trimList s).filter (fun c => c != '\n')).filter (fun c => c != '\r')

/-- The lookup table of boost binary_from_base64: six-bit value of a
character, none for characters that raise dataflow_exception.  The padding
character maps to 0. -/
def sixbit (c : Char) : Option Nat :=
  let t := c.toNat
  if t = 43 then some 62
  else if t = 47 then some 63
  else if 48 ≤ t ∧ t ≤ 57 then some (t - 48 + 52)
  else if t = 61 then some 0
  else if 65 ≤ t ∧ t ≤ 90 then some (t - 65)
  else if 97 ≤ t ∧ t ≤ 122 then some (t - 97 + 26)
  else none

/-- Convert every character of the cleaned input to its six-bit value; the
first invalid character aborts the whole decode (the exception unwinds the
vector construction). -/
def sixbitAll : List Char → Option (List Nat)
  | [] => some []
  | c :: t =>
    match sixbit c, sixbitAll t with
    | some v, some vs => some (v :: vs)
    | _, _ => none

/-- transform_width<.., 8, 6>: regroup six-bit values into bytes.  A leftover
group of one value makes the final fill read past the end of the cleaned
string (the terminating character, not in the alphabet), so it fails; leftover
groups of two or three values yield one or two bytes, dropping the unused low
bits of the last value. -/
def decodeQuads : List Nat → Option (List Nat)
  | [] => some []
  | [_] => none
  | [a, b] => some [a * 4 + b / 16]
  | [a, b, c] => some [a * 4 + b / 16, b % 16 * 16 + c / 4]
  | a :: b :: c :: d :: rest =>
    (decodeQuads rest).map
      (fun l => (a * 4 + b / 16) :: (b % 16 * 16 + c / 4) :: (c % 4 * 64 + d) :: l)

/-- Faults of base64_decode.  invalidChar models the dataflow_exception path,
rethrown as std::runtime_error; eraseOutOfBounds marks the case where the
final erase of padding bytes would form an iterator before begin(), which is
undefined behavior in the C++ source. -/
inductive CodecFault where
  | invalidChar : CodecFault
  | eraseOutOfBounds : CodecFault
deriving DecidableEq

instance {ε α : Type} [DecidableEq ε] [DecidableEq α] : DecidableEq (Except ε α) := by
  intro a b
  cases a <;> cases b
  case error.error e f =>
    exact if h : e = f then .isTrue (by rw [h]) else .isFalse (by intro hh; cases hh; exact h rfl)
  case error.ok e x => exact .isFalse (by intro hh; cases hh)
  case ok.error x e => exact .isFalse (by intro hh; cases hh)
  case ok.ok x y =>
    exact if h : x = y then .isTrue (by rw [h]) else .isFalse (by intro hh; cases hh; exact h rfl)

/-- The padding counter of main.cpp lines 35-39: one for a trailing padding
character, plus one if the character before it is also a padding character. -/
def padCount (cl : List Char) : Nat :=
  (if cl.getD (cl.length - 1) ' ' = '=' then 1 else 0)
    + (if 1 < cl.length ∧ cl.getD (cl.length - 2) ' ' = '=' then 1 else 0)

/-- Body of base64_decode after the cleaning phase (main.cpp lines 33-44). -/
def base64_decode_clean (cl : List Char) : Except CodecFault (List Nat) :=
  if cl.isEmpty then .ok []
  else
    let padding := padCount cl
    match sixbitAll cl with
    | none => .error .invalidChar
    | some vs =>
      match decodeQuads vs with
      | none => .error .invalidChar
      | some bytes =>
        if padding ≤ bytes.length then .ok (List.take (bytes.length - padding) bytes)
        else .error .eraseOutOfBounds

/-- base64_decode of main.cpp lines 21-48. -/
def base64_decode (encoded : List Char) : Except CodecFault (List Nat) :=
  base64_decode_clean (clean encoded)

/-- The base64 alphabet used by boost base64_from_binary. -/
def alphabet : List Char :=
  "ABCDEFGHIJKLMNOPQRSTUVWXYZabcdefghijklmnopqrstuvwxyz0123456789+/".toList

/-- Character of a six-bit value. -/
def alphabetChar (v : Nat) : Char := alphabet.getD v 'A'

/-- transform_width<.., 6, 8> of the encode direction: split the byte stream
into six-bit groups, zero-filling the last group. -/
def sixbitGroups : List Nat → List Nat
  | [] => []
  | [b1] => [b1 / 4, b1 % 4 * 16]
  | [b1, b2] => [b1 / 4, b1 % 4 * 16 + b2 / 16, b2 % 16 * 4]
  | b1 :: b2 :: b3 :: rest =>
    (b1 / 4) :: (b1 % 4 * 16 + b2 / 16) :: (b2 % 16 * 4 + b3 / 64) :: (b3 % 64)
      :: sixbitGroups rest

/-- base64_encode of main.cpp lines 51-62: alphabet characters for the six-bit
groups, then (3 - len mod 3) mod 3 padding characters. -/
def base64_encode (data : List Nat) : List Char :=
  (sixbitGroups data).map alphabetChar
    ++ List.replicate ((3 - data.length % 3) % 3) '='

/-- A decoded image: a grid of color samples, three channels per pixel
(spec section 3, PixelBuffer). -/
structure PixelBuffer where
  width : Nat
  height : Nat
  data : List Nat
deriving DecidableEq

/-- Sample of the buffer at column x, row y, channel c (zero outside). -/
def pixelAt (buf : PixelBuffer) (x y c : Nat) : Nat :=
  buf.data.getD ((y * buf.width + x) * 3 + c) 0

/-- Source indices whose area overlaps output index t when srcLen samples are
resampled to dstLen samples; never empty. -/
def blockIdx (t srcLen dstLen : Nat) : List Nat :=
  let lo := t * srcLen / dstLen
  let hi := max ((t + 1) * srcLen / dstLen) (lo + 1)
  (List.range (hi - lo)).map (lo + ·)

/-- Modelled from the spec: cv::resize with INTER_AREA (main.cpp lines 86-88,
spec section 4.3 resample).  Produces a buffer of exactly width times height
samples, each output sample an area-weighted average of the overlapping input
samples, the same policy for enlargement and reduction; total, it never
fails. -/
def resample (buf : PixelBuffer) (w h : Nat) : PixelBuffer :=
  ⟨w, h,
    (List.range (w * h * 3)).map fun idx =>
      let c := idx % 3
      let p := idx / 3
      let xs := blockIdx (p % w) buf.width w
      let ys := blockIdx (p / w) buf.height h
      let vals := ys.flatMap fun sy => xs.map fun sx => pixelAt buf sx sy c
      vals.sum / vals.length⟩

/-- Modelled from the spec: cv::imencode ".jpg" (main.cpp line 96, spec
section 4.3 encode_image).  Serializes the buffer into bytes at a fixed
quality setting; the exact dimensions are recoverable from the serialized
form, as they are from a JPEG header. -/
def encode_image (buf : PixelBuffer) : List Nat :=
  buf.width / 256 :: buf.width % 256 :: buf.height / 256 :: buf.height % 256
    :: buf.data

/-- Modelled from the spec: cv::imdecode with IMREAD_COLOR (main.cpp line 80,
spec section 4.3 decode_image).  Fails when the bytes are empty, truncated,
or not a recognizable serialized image; otherwise materializes the pixel
buffer with eight-bit samples. -/
def decode_image (bytes : List Nat) : Except Unit PixelBuffer :=
  match bytes with
  | wh :: wl :: hh :: hl :: rest =>
    let w := wh * 256 + wl
    let h := hh * 256 + hl
    if w = 0 ∨ h = 0 ∨ rest.length ≠ w * h * 3 ∨ rest.any (fun v => 255 < v)
    then .error () else .ok ⟨w, h, rest⟩
  | _ => .error ()

/-- The failure taxonomy of spec section 7, as raised by resize_jpeg.
undefinedErase marks the out-of-bounds erase inside base64_decode, which is
undefined behavior in the C++ source rather than a raised error. -/
inductive PipelineError where
  | invalidDimension : PipelineError
  | emptyInput : PipelineError
  | codecError : PipelineError
  | imageDecodeError : PipelineError
  | imageEncodeError : PipelineError
  | undefinedErase : PipelineError
deriving DecidableEq

/-- resize_jpeg of main.cpp lines 65-104: validate dimensions, base64 decode,
empty check, image decode, resample, image encode, base64 encode, with early
exit on the first failing stage. -/
def resize_jpeg (input : List Char) (w h : Int) : Except PipelineError (List Char) :=
  if w ≤ 0 ∨ h ≤ 0 then .error .invalidDimension
  else if 65500 < w ∨ 65500 < h then .error .invalidDimension
  else
    match base64_decode input with
    | .error .invalidChar => .error .codecError
    | .error .eraseOutOfBounds => .error .undefinedErase
    | .ok jpeg_data =>
      if jpeg_data.isEmpty then .error .emptyInput
      else
        match decode_image jpeg_data with
        | .error _ => .error .imageDecodeError
        | .ok input_image =>
          let output_buffer := encode_image (resample input_image w.toNat h.toNat)
          if output_buffer.isEmpty then .error .imageEncodeError
          else .ok (base64_encode output_buffer)

/-- C++ exception classes thrown for each failure (main.cpp lines 66-99); the
undefined erase throws nothing in particular. -/
inductive ExcClass where
  | invalid_argument : ExcClass
  | runtime_error : ExcClass
deriving DecidableEq

/-- Exception class of each pipeline failure: the dimension and empty-input
checks throw std::invalid_argument; base64_decode rethrows every codec
failure as std::runtime_error, and the image decode and encode failures are
std::runtime_error as well. -/
def cppExcClass : PipelineError → Option ExcClass
  | .invalidDimension => some .invalid_argument
  | .emptyInput => some .invalid_argument
  | .codecError => some .runtime_error
  | .imageDecodeError => some .runtime_error
  | .imageEncodeError => some .runtime_error
  | .undefinedErase => none

/-- The handler of main (lines 131-146): success responds 200, a caught
std::invalid_argument responds 400, any other caught std::exception responds
500.  No status is defined for the undefined-behavior path. -/
def httpStatus (r : Except PipelineError (List Char)) : Option Nat :=
  match r with
  | .ok _ => some 200
  | .error e =>
    match cppExcClass e with
    | some .invalid_argument => some 400
    | some .runtime_error => some 500
    | none => none

/-- State-passing form of resize_jpeg: the function reads only its arguments
and local buffers (no globals, no statics in main.cpp lines 65-104), so the
ambient state passes through untouched. -/
def resize_jpegSt {σ : Type} (st : σ) (input : List Char) (w h : Int) :
    σ × Except PipelineError (List Char) :=
  (st, resize_jpeg input w h)

example : base64_encode [72, 101, 108, 108, 111] = "SGVsbG8=".toList := by decide

example : base64_decode "SGVsbG8=".toList = .ok [72, 101, 108, 108, 111] := by decide

example : base64_decode "==".toList = .error .eraseOutOfBounds := by decide

example : base64_decode "A".toList = .error .invalidChar := by decide

example : base64_decode "AA".toList = .ok [0] := by decide

/-! Helper lemmas: induction principle following the three-byte grouping. -/

theorem listThreeInduction {P : List Nat → Prop} (h0 : P []) (h1 : ∀ x, P [x])
    (h2 : ∀ x y, P [x, y]) (h3 : ∀ x y z l, P l → P (x :: y :: z :: l)) :
    ∀ l, P l
  | [] => h0
  | [x] => h1 x
  | [x, y] => h2 x y
  | x :: y :: z :: l => h3 x y z l (listThreeInduction h0 h1 h2 h3 l)

theorem sixbitGroups_lt :
    ∀ b : List Nat, (∀ x ∈ b, x < 256) → ∀ v ∈ sixbitGroups b, v < 64 := by
  refine listThreeInduction ?_ ?_ ?_ ?_
  · intro _ v hv; simp [sixbitGroups] at hv
  · intro x h v hv
    have hx := h x (by simp)
    simp [sixbitGroups] at hv
    rcases hv with rfl | rfl <;> omega
  · intro x y h v hv
    have hx := h x (by simp)
    have hy := h y (by simp)
    simp [sixbitGroups] at hv
    rcases hv with rfl | rfl | rfl <;> omega
  · intro x y z l ih h v hv
    have hx := h x (by simp)
    have hy := h y (by simp)
    have hz := h z (by simp)
    simp only [sixbitGroups, List.mem_cons] at hv
    rcases hv with rfl | rfl | rfl | rfl | hv
    · omega
    · omega
    · omega
    · omega
    · exact ih (fun a ha => h a (by simp [ha])) v hv

theorem sixbitGroups_length :
    ∀ b : List Nat, (sixbitGroups b).length = (4 * b.length + 2) / 3 := by
  refine listThreeInduction ?_ ?_ ?_ ?_
  · simp [sixbitGroups]
  · intro x; simp [sixbitGroups]
  · intro x y; simp [sixbitGroups]
  · intro x y z l ih
    simp only [sixbitGroups, List.length_cons, ih]
    omega

/-- Decoding the six-bit groups of the encoder, extended with the zero value
of the padding characters, recovers the bytes followed by the zero filler
bytes that the erase step removes. -/
theorem decodeQuads_sixbitGroups :
    ∀ b : List Nat, (∀ x ∈ b, x < 256) →
      decodeQuads (sixbitGroups b ++ List.replicate ((3 - b.length % 3) % 3) 0)
        = some (b ++ List.replicate ((3 - b.length % 3) % 3) 0) := by
  refine listThreeInduction ?_ ?_ ?_ ?_
  · intro _; rfl
  · intro x h
    have hx := h x (by simp)
    have hrep : (3 - ([x] : List Nat).length % 3) % 3 = 2 := by simp
    rw [hrep]
    show decodeQuads [x / 4, x % 4 * 16, 0, 0] = some [x, 0, 0]
    have e1 : x / 4 * 4 + x % 4 * 16 / 16 = x := by omega
    have e2 : x % 4 * 16 % 16 * 16 + 0 / 4 = 0 := by omega
    simp only [decodeQuads, Option.map_some', e1, e2]
  · intro x y h
    have hx := h x (by simp)
    have hy := h y (by simp)
    have hrep : (3 - ([x, y] : List Nat).length % 3) % 3 = 1 := by simp
    rw [hrep]
    show decodeQuads [x / 4, x % 4 * 16 + y / 16, y % 16 * 4, 0] = some [x, y, 0]
    have e1 : x / 4 * 4 + (x % 4 * 16 + y / 16) / 16 = x := by omega
    have e2 : (x % 4 * 16 + y / 16) % 16 * 16 + y % 16 * 4 / 4 = y := by omega
    have e3 : y % 16 * 4 % 4 * 64 + 0 = 0 := by omega
    simp only [decodeQuads, Option.map_some', e1, e2, e3]
  · intro x y z l ih h
    have hx := h x (by simp)
    have hy := h y (by simp)
    have hz := h z (by simp)
    have hlen : (x :: y :: z :: l).length % 3 = l.length % 3 := by
      simp [List.length_cons]; omega
    rw [hlen]
    have e1 : x / 4 * 4 + (x % 4 * 16 + y / 16) / 16 = x := by omega
    have e2 : (x % 4 * 16 + y / 16) % 16 * 16 + (y % 16 * 4 + z / 64) / 4 = y := by
      omega
    have e3 : (y % 16 * 4 + z / 64) % 4 * 64 + z % 64 = z := by omega
    simp only [sixbitGroups, List.cons_append, decodeQuads, List.append_eq,
      ih (fun a ha => h a (by simp [ha])), Option.map_some', e1, e2, e3]

theorem alphabetChar_not_space : ∀ v, v < 64 → isSpaceC (alphabetChar v) = false := by
  decide

theorem alphabetChar_ne_pad : ∀ v, v < 64 → alphabetChar v ≠ '=' := by decide

theorem sixbit_alphabetChar : ∀ v, v < 64 → sixbit (alphabetChar v) = some v := by
  decide

theorem encode_chars_not_space (b : List Nat) (hb : ∀ x ∈ b, x < 256) :
    ∀ c ∈ base64_encode b, isSpaceC c = false := by
  intro c hc
  rcases List.mem_append.mp hc with hm | hr
  · rcases List.mem_map.mp hm with ⟨v, hv, rfl⟩
    exact alphabetChar_not_space v (sixbitGroups_lt b hb v hv)
  · rw [List.eq_of_mem_replicate hr]; rfl

theorem dropWhile_eq_self_of_all {p : Char → Bool} {l : List Char}
    (h : ∀ c ∈ l, p c = false) : l.dropWhile p = l := by
  cases l with
  | nil => rfl
  | cons a t => simp [List.dropWhile_cons, h a (List.mem_cons_self a t)]

theorem trimList_eq_self {l : List Char} (h : ∀ c ∈ l, isSpaceC c = false) :
    trimList l = l := by
  unfold trimList
  rw [dropWhile_eq_self_of_all h,
    dropWhile_eq_self_of_all (fun c hc => h c (List.mem_reverse.mp hc)),
    List.reverse_reverse]

theorem clean_eq_self {l : List Char} (h : ∀ c ∈ l, isSpaceC c = false) :
    clean l = l := by
  unfold clean
  rw [trimList_eq_self h]
  rw [List.filter_eq_self.mpr, List.filter_eq_self.mpr]
  · intro c hc
    have := h c hc
    simp only [bne_iff_ne, ne_eq]
    intro hcn
    subst hcn
    simp [isSpaceC] at this
  · intro c hc
    have := h c (List.mem_of_mem_filter hc)
    simp only [bne_iff_ne, ne_eq]
    intro hcr
    subst hcr
    simp [isSpaceC] at this

theorem sixbitAll_append_map {g : List Nat} (hg : ∀ v ∈ g, v < 64)
    {R : List Char} {out : List Nat} (hR : sixbitAll R = some out) :
    sixbitAll (g.map alphabetChar ++ R) = some (g ++ out) := by
  induction g with
  | nil => simpa using hR
  | cons v g ih =>
    have hv := hg v (by simp)
    simp only [List.map_cons, List.cons_append, sixbitAll, List.append_eq,
      sixbit_alphabetChar v hv, ih (fun a ha => hg a (by simp [ha]))]

theorem getD_mem_or {α : Type} (l : List α) (i : Nat) (d : α) :
    l.getD i d ∈ l ∨ l.getD i d = d := by
  by_cases hi : i < l.length
  · left
    rw [List.getD_eq_getElem l d hi]
    exact l.getElem_mem hi
  · right
    exact List.getD_eq_default l d (by omega)

theorem padCount_append_pad (A : List Char) (p : Nat)
    (hA : ∀ c ∈ A, c ≠ '=') (hlen : 2 ≤ A.length) (hp : p ≤ 2) :
    padCount (A ++ List.replicate p '=') = p := by
  have hAget : ∀ i, (A.getD i ' ') ≠ '=' := by
    intro i
    rcases getD_mem_or A i ' ' with hm | he
    · exact hA _ hm
    · rw [he]; decide
  interval_cases p
  · simp only [List.replicate_zero, List.append_nil, padCount]
    rw [if_neg (hAget (A.length - 1)),
      if_neg (fun hh => hAget (A.length - 2) hh.2)]
  · have hlast : (A ++ List.replicate 1 '=').getD ((A ++ List.replicate 1 '=').length - 1) ' ' = '=' := by
      rw [List.length_append, List.length_replicate]
      rw [List.getD_eq_getElem _ _ (by rw [List.length_append, List.length_replicate]; omega)]
      rw [List.getElem_append_right (by omega)]
      simp
    have hprev : (A ++ List.replicate 1 '=').getD ((A ++ List.replicate 1 '=').length - 2) ' ' = A.getD (A.length - 1) ' ' := by
      rw [List.length_append, List.length_replicate]
      rw [List.getD_eq_getElem _ _ (by rw [List.length_append, List.length_replicate]; omega)]
      rw [List.getElem_append_left (by omega)]
      rw [List.getD_eq_getElem _ _ (by omega)]
      congr 1
    unfold padCount
    rw [hlast, hprev]
    rw [if_pos rfl, if_neg (fun hh => hAget (A.length - 1) hh.2)]
  · have hlast : (A ++ List.replicate 2 '=').getD ((A ++ List.replicate 2 '=').length - 1) ' ' = '=' := by
      rw [List.length_append, List.length_replicate]
      rw [List.getD_eq_getElem _ _ (by rw [List.length_append, List.length_replicate]; omega)]
      rw [List.getElem_append_right (by omega)]
      simp
    have hprev : (A ++ List.replicate 2 '=').getD ((A ++ List.replicate 2 '=').length - 2) ' ' = '=' := by
      rw [List.length_append, List.length_replicate]
      rw [List.getD_eq_getElem _ _ (by rw [List.length_append, List.length_replicate]; omega)]
      rw [List.getElem_append_right (by omega)]
      simp
    unfold padCount
    rw [hlast, hprev]
    have hgt : 1 < (A ++ List.replicate 2 '=').length := by
      rw [List.length_append, List.length_replicate]; omega
    rw [if_pos rfl, if_pos ⟨hgt, rfl⟩]

/-- Byte-exact round trip of the text codec: decoding an encoded byte
sequence recovers it exactly, padding included. -/
theorem base64_decode_encode (b : List Nat) (hb : ∀ x ∈ b, x < 256) :
    base64_decode (base64_encode b) = .ok b := by
  rcases eq_or_ne b [] with rfl | hne
  · rfl
  · have hg64 := sixbitGroups_lt b hb
    have hclean : clean (base64_encode b) = base64_encode b :=
      clean_eq_self (encode_chars_not_space b hb)
    have hblen : 1 ≤ b.length := by
      cases b with
      | nil => exact absurd rfl hne
      | cons a t => simp
    have hAlen : 2 ≤ ((sixbitGroups b).map alphabetChar).length := by
      rw [List.length_map, sixbitGroups_length]; omega
    have hp2 : (3 - b.length % 3) % 3 ≤ 2 := by omega
    have hpad : padCount (base64_encode b) = (3 - b.length % 3) % 3 := by
      unfold base64_encode
      refine padCount_append_pad _ _ ?_ hAlen hp2
      intro c hc
      rcases List.mem_map.mp hc with ⟨v, hv, rfl⟩
      exact alphabetChar_ne_pad v (hg64 v hv)
    have hrep0 : sixbitAll (List.replicate ((3 - b.length % 3) % 3) '=')
        = some (List.replicate ((3 - b.length % 3) % 3) 0) := by
      have h3 : (3 - b.length % 3) % 3 = 0 ∨ (3 - b.length % 3) % 3 = 1
          ∨ (3 - b.length % 3) % 3 = 2 := by omega
      rcases h3 with h | h | h <;> rw [h] <;> rfl
    have hall : sixbitAll (base64_encode b)
        = some (sixbitGroups b ++ List.replicate ((3 - b.length % 3) % 3) 0) :=
      sixbitAll_append_map hg64 hrep0
    have hquads := decodeQuads_sixbitGroups b hb
    have hnonempty : (base64_encode b).isEmpty = false := by
      have hpos : 0 < (base64_encode b).length := by
        unfold base64_encode
        rw [List.length_append]
        omega
      cases henc : base64_encode b with
      | nil => rw [henc] at hpos; simp at hpos
      | cons a t => rfl
    unfold base64_decode
    rw [hclean]
    unfold base64_decode_clean
    simp only [hnonempty, Bool.false_eq_true, if_false, hpad, hall, hquads]
    have hlen2 : (b ++ List.replicate ((3 - b.length % 3) % 3) 0).length
        = b.length + (3 - b.length % 3) % 3 := by
      rw [List.length_append, List.length_replicate]
    rw [if_pos (by rw [hlen2]; omega)]
    rw [hlen2]
    have htake : b.length + (3 - b.length % 3) % 3 - (3 - b.length % 3) % 3
        = b.length := by omega
    rw [htake]
    rw [List.take_left]

/-! Image-layer lemmas: bounds and the dimension round trip of the modelled
image codec. -/

theorem pixelAt_le {buf : PixelBuffer} (hd : ∀ v ∈ buf.data, v ≤ 255)
    (x y c : Nat) : pixelAt buf x y c ≤ 255 := by
  unfold pixelAt
  rcases getD_mem_or buf.data ((y * buf.width + x) * 3 + c) 0 with hm | he
  · exact hd _ hm
  · omega

theorem sum_le_mul_length (l : List Nat) (h : ∀ v ∈ l, v ≤ 255) :
    l.sum ≤ 255 * l.length := by
  induction l with
  | nil => simp
  | cons a t ih =>
    have ha := h a (by simp)
    have ht := ih (fun v hv => h v (by simp [hv]))
    simp only [List.sum_cons, List.length_cons]
    omega

theorem sum_div_length_le (l : List Nat) (h : ∀ v ∈ l, v ≤ 255) :
    l.sum / l.length ≤ 255 := by
  cases l with
  | nil => simp
  | cons a t =>
    have h1 := sum_le_mul_length _ h
    have h2 : 0 < (a :: t).length := by simp
    have h3 := Nat.div_le_div_right (c := (a :: t).length) h1
    rwa [Nat.mul_div_cancel _ h2] at h3

theorem resample_width (buf : PixelBuffer) (w h : Nat) :
    (resample buf w h).width = w := rfl

theorem resample_height (buf : PixelBuffer) (w h : Nat) :
    (resample buf w h).height = h := rfl

theorem resample_data_length (buf : PixelBuffer) (w h : Nat) :
    (resample buf w h).data.length = w * h * 3 := by
  simp [resample]

theorem resample_data_le (buf : PixelBuffer) (hd : ∀ v ∈ buf.data, v ≤ 255)
    (w h : Nat) : ∀ v ∈ (resample buf w h).data, v ≤ 255 := by
  intro v hv
  simp only [resample, List.mem_map] at hv
  rcases hv with ⟨idx, -, rfl⟩
  apply sum_div_length_le
  intro u hu
  simp only [List.mem_flatMap, List.mem_map] at hu
  rcases hu with ⟨sy, -, sx, -, rfl⟩
  exact pixelAt_le hd _ _ _

/-- The modelled image codec preserves the buffer through a serialize and
parse cycle, in particular its exact dimensions. -/
theorem decode_encode_image (buf : PixelBuffer) (h1 : 0 < buf.width)
    (h2 : buf.width < 65536) (h3 : 0 < buf.height) (h4 : buf.height < 65536)
    (h5 : buf.data.length = buf.width * buf.height * 3)
    (h6 : ∀ v ∈ buf.data, v ≤ 255) :
    decode_image (encode_image buf) = .ok buf := by
  unfold encode_image decode_image
  have hw : buf.width / 256 * 256 + buf.width % 256 = buf.width := by omega
  have hh : buf.height / 256 * 256 + buf.height % 256 = buf.height := by omega
  simp only [hw, hh]
  rw [if_neg]
  · rintro (hz | hz | hz | hz)
    · omega
    · omega
    · exact hz h5
    · rcases List.any_eq_true.mp hz with ⟨v, hv, hlt⟩
      have := h6 v hv
      simp at hlt
      omega

theorem encode_image_lt_256 (buf : PixelBuffer) (h2 : buf.width < 65536)
    (h4 : buf.height < 65536) (h6 : ∀ v ∈ buf.data, v ≤ 255) :
    ∀ v ∈ encode_image buf, v < 256 := by
  intro v hv
  simp only [encode_image, List.mem_cons] at hv
  rcases hv with rfl | rfl | rfl | rfl | hv
  · omega
  · omega
  · omega
  · omega
  · have := h6 v hv; omega

theorem decode_image_bounds {bytes : List Nat} {buf : PixelBuffer}
    (h : decode_image bytes = .ok buf) :
    0 < buf.width ∧ 0 < buf.height ∧ buf.data.length = buf.width * buf.height * 3
      ∧ (∀ v ∈ buf.data, v ≤ 255) ∧ bytes ≠ [] := by
  match bytes, h with
  | wh :: wl :: hh :: hl :: rest, h =>
    simp only [decode_image] at h
    by_cases hc : wh * 256 + wl = 0 ∨ hh * 256 + hl = 0
        ∨ rest.length ≠ (wh * 256 + wl) * (hh * 256 + hl) * 3
        ∨ rest.any (fun v => 255 < v)
    · rw [if_pos hc] at h
      cases h
    · rw [if_neg hc] at h
      cases h
      push_neg at hc
      obtain ⟨hz1, hz2, hz3, hz4⟩ := hc
      refine ⟨Nat.pos_of_ne_zero hz1, Nat.pos_of_ne_zero hz2, hz3, ?_, by simp⟩
      intro v hv
      by_contra hgt
      push_neg at hgt
      exact hz4 (List.any_eq_true.mpr ⟨v, hv, by simpa using hgt⟩)

/-! Pipeline-path lemmas. -/

theorem resize_jpeg_ok {s : List Char} {w h : Int} (hw1 : 0 < w)
    (hw2 : w ≤ 65500) (hh1 : 0 < h) (hh2 : h ≤ 65500) {bytes : List Nat}
    {buf : PixelBuffer} (hdec : base64_decode s = .ok bytes)
    (himg : decode_image bytes = .ok buf) :
    resize_jpeg s w h
      = .ok (base64_encode (encode_image (resample buf w.toNat h.toNat))) := by
  have hbne : bytes ≠ [] := (decode_image_bounds himg).2.2.2.2
  have hbe : bytes.isEmpty = false := by
    cases bytes with
    | nil => exact absurd rfl hbne
    | cons a t => rfl
  unfold resize_jpeg
  rw [if_neg (show ¬(w ≤ 0 ∨ h ≤ 0) by omega),
    if_neg (show ¬(65500 < w ∨ 65500 < h) by omega), hdec]
  simp only [hbe, Bool.false_eq_true, if_false, himg]
  rfl

theorem resize_jpeg_ne_invalidDim {s : List Char} {w h : Int} (hw1 : 0 < w)
    (hw2 : w ≤ 65500) (hh1 : 0 < h) (hh2 : h ≤ 65500) :
    resize_jpeg s w h ≠ .error .invalidDimension := by
  unfold resize_jpeg
  rw [if_neg (show ¬(w ≤ 0 ∨ h ≤ 0) by omega),
    if_neg (show ¬(65500 < w ∨ 65500 < h) by omega)]
  cases hdec : base64_decode s with
  | error e => cases e <;> simp
  | ok jd =>
    by_cases hje : jd.isEmpty
    · simp [hje]
    · simp only [hje, Bool.false_eq_true, if_false]
      cases himg : decode_image jd with
      | error e => simp
      | ok img =>
        by_cases henc : (encode_image (resample img w.toNat h.toNat)).isEmpty
          <;> simp [henc]

theorem resize_jpeg_codec {s : List Char} {w h : Int} (hw1 : 0 < w)
    (hw2 : w ≤ 65500) (hh1 : 0 < h) (hh2 : h ≤ 65500)
    (hdec : base64_decode s = .error .invalidChar) :
    resize_jpeg s w h = .error .codecError := by
  unfold resize_jpeg
  rw [if_neg (show ¬(w ≤ 0 ∨ h ≤ 0) by omega),
    if_neg (show ¬(65500 < w ∨ 65500 < h) by omega), hdec]

theorem resize_jpeg_empty {s : List Char} {w h : Int} (hw1 : 0 < w)
    (hw2 : w ≤ 65500) (hh1 : 0 < h) (hh2 : h ≤ 65500)
    (hdec : base64_decode s = .ok []) :
    resize_jpeg s w h = .error .emptyInput := by
  unfold resize_jpeg
  rw [if_neg (show ¬(w ≤ 0 ∨ h ≤ 0) by omega),
    if_neg (show ¬(65500 < w ∨ 65500 < h) by omega), hdec]
  rfl

/-- A string of whitespace characters cleans to the empty string. -/
theorem clean_of_all_space {s : List Char} (h : ∀ c ∈ s, isSpaceC c = true) :
    clean s = [] := by
  have hdrop : s.dropWhile isSpaceC = [] := by
    induction s with
    | nil => rfl
    | cons a t ih =>
      rw [List.dropWhile_cons, if_pos (h a (by simp))]
      exact ih (fun c hc => h c (by simp [hc]))
  unfold clean trimList
  rw [hdrop]
  rfl

/-! Whitespace-insertion lemmas for the codec. -/

/-- s is turned into t by inserting line-break characters at arbitrary
positions. -/
inductive InsNL : List Char → List Char → Prop where
  | nil : InsNL [] []
  | keep (c : Char) {l l' : List Char} : InsNL l l' → InsNL (c :: l) (c :: l')
  | ins (c : Char) {l l' : List Char} (h : c = '\n' ∨ c = '\r') :
      InsNL l l' → InsNL l (c :: l')

/-- The combined filter of the two erase passes of base64_decode. -/
def lineFilter (c : Char) : Bool := (c != '\r') && (c != '\n')

theorem lineFilter_false_space {c : Char} (h : lineFilter c = false) :
    isSpaceC c = true := by
  simp only [lineFilter, Bool.and_eq_false_iff, bne_eq_false_iff_eq] at h
  rcases h with rfl | rfl <;> rfl

theorem filter_lineFilter_insNL {l l' : List Char} (hins : InsNL l l') :
    l'.filter lineFilter = l.filter lineFilter := by
  induction hins with
  | nil => rfl
  | keep c _ ih => rw [List.filter_cons, List.filter_cons, ih]
  | ins c hc _ ih =>
    have hf : lineFilter c = false := by
      rcases hc with rfl | rfl <;> rfl
    rw [List.filter_cons, hf]
    simpa using ih

theorem filter_lineFilter_dropWhile (l : List Char) :
    (l.dropWhile isSpaceC).filter lineFilter
      = (l.filter lineFilter).dropWhile isSpaceC := by
  induction l with
  | nil => rfl
  | cons a t ih =>
    by_cases hws : isSpaceC a
    · cases hg : lineFilter a
      · simp [List.dropWhile_cons, hws, List.filter_cons, hg, ih]
      · simp [List.dropWhile_cons, hws, List.filter_cons, hg, ih]
    · have hg : lineFilter a = true := by
        cases hgf : lineFilter a
        · exact absurd (lineFilter_false_space hgf) hws
        · rfl
      simp [List.dropWhile_cons, hws, List.filter_cons, hg]

theorem clean_eq_trim_filter (l : List Char) :
    clean l = trimList (l.filter lineFilter) := by
  unfold clean
  rw [List.filter_filter]
  show (trimList l).filter lineFilter = trimList (l.filter lineFilter)
  unfold trimList
  rw [List.filter_reverse, filter_lineFilter_dropWhile, List.filter_reverse,
    filter_lineFilter_dropWhile]

theorem clean_insNL {l l' : List Char} (hins : InsNL l l') :
    clean l' = clean l := by
  rw [clean_eq_trim_filter, clean_eq_trim_filter,
    filter_lineFilter_insNL hins]

/-! Claim theorems. -/

/-- C1: for every byte sequence b, encoding b with base64_encode and then
decoding the result with base64_decode yields exactly b, byte for byte,
including for lengths not divisible by 3 where padding is appended. -/
theorem c1_round_trip (b : List Nat) (hb : ∀ x ∈ b, x < 256) :
    base64_decode (base64_encode b) = .ok b :=
  base64_decode_encode b hb

theorem c1_round_trip_witness :
    (∀ x ∈ [72, 101, 108, 108, 111], x < 256)
      ∧ base64_decode (base64_encode [72, 101, 108, 108, 111])
          = .ok [72, 101, 108, 108, 111] :=
  ⟨by decide, c1_round_trip [72, 101, 108, 108, 111] (by decide)⟩

/-- C2: resize_jpeg fails with InvalidDimension exactly when width or height
is nonpositive or exceeds 65500; in particular the bound is inclusive, so
the pair 65500 x 65500 passes the validator, and no other pair is
rejected. -/
theorem c2_dimension_validation (s : List Char) (w h : Int) :
    resize_jpeg s w h = .error .invalidDimension
      ↔ (w ≤ 0 ∨ h ≤ 0 ∨ 65500 < w ∨ 65500 < h) := by
  constructor
  · intro heq
    by_contra hnot
    push_neg at hnot
    obtain ⟨h1, h2, h3, h4⟩ := hnot
    exact resize_jpeg_ne_invalidDim (by omega) (by omega) (by omega) (by omega)
      heq
  · intro hcond
    unfold resize_jpeg
    by_cases h1 : w ≤ 0 ∨ h ≤ 0
    · rw [if_pos h1]
    · rw [if_neg h1, if_pos (by omega)]

/-- C3 counterexample: the claim fails in two ways.  The valid-alphabet
input AA has length not aligned to the four-character block, yet it decodes
successfully, so the pipeline does not fail with CodecError on it; and an
input with non-alphabet characters does fail with CodecError, but the error
is rethrown as std::runtime_error and surfaced as HTTP 500, a server error,
not HTTP 400. -/
theorem c3_counterexample :
    resize_jpeg ['A', 'A'] 100 100 ≠ .error .codecError
      ∧ resize_jpeg ['*', '*', '*', '*'] 100 100 = .error .codecError
      ∧ httpStatus (resize_jpeg ['*', '*', '*', '*'] 100 100) = some 500
      ∧ httpStatus (resize_jpeg ['*', '*', '*', '*'] 100 100) ≠ some 400 := by
  decide

/-- C3 (amended): for every input string on which the cleaned text decoding
fails (a non-alphabet character present, or cleaned length congruent 1 mod
4; valid-character lengths congruent 2 or 3 mod 4 decode successfully), the
pipeline with validated dimensions fails with CodecError, and that failure
is surfaced as a server error (HTTP 500), not as a client error. -/
theorem c3_codec_error_is_server_error (s : List Char) (w h : Int)
    (hw1 : 0 < w) (hw2 : w ≤ 65500) (hh1 : 0 < h) (hh2 : h ≤ 65500)
    (hdec : base64_decode s = .error .invalidChar) :
    resize_jpeg s w h = .error .codecError
      ∧ httpStatus (resize_jpeg s w h) = some 500 := by
  have h1 := resize_jpeg_codec hw1 hw2 hh1 hh2 hdec
  exact ⟨h1, by rw [h1]; rfl⟩

theorem c3_codec_error_is_server_error_witness :
    ((0 : Int) < 100 ∧ (100 : Int) ≤ 65500
        ∧ base64_decode ['*', '*', '*', '*'] = .error .invalidChar)
      ∧ resize_jpeg ['*', '*', '*', '*'] 100 100 = .error .codecError
      ∧ httpStatus (resize_jpeg ['*', '*', '*', '*'] 100 100) = some 500 :=
  ⟨⟨by decide, by decide, by decide⟩,
    c3_codec_error_is_server_error ['*', '*', '*', '*'] 100 100 (by decide)
      (by decide) (by decide) (by decide) (by decide)⟩

/-- C4: every input string consisting of whitespace only (so empty after
stripping) decodes to the empty byte sequence without a codec error; with
validated dimensions the pipeline then fails with EmptyInput, surfaced as a
client error (HTTP 400), because the decoded byte sequence has zero
length. -/
theorem c4_whitespace_empty_input (s : List Char) (w h : Int)
    (hsp : ∀ c ∈ s, isSpaceC c = true) (hw1 : 0 < w) (hw2 : w ≤ 65500)
    (hh1 : 0 < h) (hh2 : h ≤ 65500) :
    base64_decode s = .ok []
      ∧ resize_jpeg s w h = .error .emptyInput
      ∧ httpStatus (resize_jpeg s w h) = some 400 := by
  have hcl : clean s = [] := clean_of_all_space hsp
  have hdec : base64_decode s = .ok [] := by
    unfold base64_decode
    rw [hcl]
    rfl
  have hres := resize_jpeg_empty hw1 hw2 hh1 hh2 hdec
  exact ⟨hdec, hres, by rw [hres]; rfl⟩

theorem c4_whitespace_empty_input_witness :
    (∀ c ∈ [' ', '\n', '\t'], isSpaceC c = true)
      ∧ base64_decode [' ', '\n', '\t'] = .ok []
      ∧ resize_jpeg [' ', '\n', '\t'] 100 100 = .error .emptyInput
      ∧ httpStatus (resize_jpeg [' ', '\n', '\t'] 100 100) = some 400 :=
  ⟨by decide, c4_whitespace_empty_input [' ', '\n', '\t'] 100 100 (by decide)
    (by decide) (by decide) (by decide) (by decide)⟩

/-- C5: the stages run in the fixed source order with early exit; in
particular, when the target dimensions are invalid the pipeline fails with
InvalidDimension before any text or image decoding is performed: the result
is the same for every input string, valid or not. -/
theorem c5_validation_before_decoding (s1 s2 : List Char) (w h : Int)
    (hbad : w ≤ 0 ∨ h ≤ 0 ∨ 65500 < w ∨ 65500 < h) :
    resize_jpeg s1 w h = .error .invalidDimension
      ∧ resize_jpeg s1 w h = resize_jpeg s2 w h := by
  have k : ∀ s : List Char, resize_jpeg s w h = .error .invalidDimension := by
    intro s
    unfold resize_jpeg
    by_cases h1 : w ≤ 0 ∨ h ≤ 0
    · rw [if_pos h1]
    · rw [if_neg h1, if_pos (by omega)]
  exact ⟨k s1, (k s1).trans (k s2).symm⟩

theorem c5_validation_before_decoding_witness :
    ((0 : Int) ≤ 0 ∨ (100 : Int) ≤ 0 ∨ (65500 : Int) < 0 ∨ (65500 : Int) < 100)
      ∧ resize_jpeg ['A', 'A', 'A', 'A'] 0 100 = .error .invalidDimension
      ∧ resize_jpeg ['A', 'A', 'A', 'A'] 0 100 = resize_jpeg ['*'] 0 100 :=
  ⟨by decide,
    c5_validation_before_decoding ['A', 'A', 'A', 'A'] ['*'] 0 100 (by decide)⟩

/-- C6: for every input that decodes to a valid image and every validated
pair (w, h), the area-average resample yields a buffer of exactly w x h with
w * h * 3 samples and cannot fail, the pipeline succeeds, and decoding the
pipeline output (text decode then image decode) yields a pixel buffer of
exactly width w and height h. -/
theorem c6_dimension_fidelity (s : List Char) (w h : Int) (bytes : List Nat)
    (buf : PixelBuffer) (hw1 : 0 < w) (hw2 : w ≤ 65500) (hh1 : 0 < h)
    (hh2 : h ≤ 65500) (hdec : base64_decode s = .ok bytes)
    (himg : decode_image bytes = .ok buf) :
    (resample buf w.toNat h.toNat).width = w.toNat
      ∧ (resample buf w.toNat h.toNat).height = h.toNat
      ∧ (resample buf w.toNat h.toNat).data.length = w.toNat * h.toNat * 3
      ∧ resize_jpeg s w h
          = .ok (base64_encode (encode_image (resample buf w.toNat h.toNat)))
      ∧ base64_decode
            (base64_encode (encode_image (resample buf w.toNat h.toNat)))
          = .ok (encode_image (resample buf w.toNat h.toNat))
      ∧ decode_image (encode_image (resample buf w.toNat h.toNat))
          = .ok (resample buf w.toNat h.toNat) := by
  obtain ⟨hbw, hbh, hbl, hbd, hbne⟩ := decode_image_bounds himg
  have hres := resize_jpeg_ok hw1 hw2 hh1 hh2 hdec himg
  have hwnat1 : 0 < w.toNat := by omega
  have hwnat2 : w.toNat < 65536 := by omega
  have hhnat1 : 0 < h.toNat := by omega
  have hhnat2 : h.toNat < 65536 := by omega
  have hle := resample_data_le buf hbd w.toNat h.toNat
  have hlen := resample_data_length buf w.toNat h.toNat
  have hb64 := base64_decode_encode (encode_image (resample buf w.toNat h.toNat))
    (encode_image_lt_256 _ hwnat2 hhnat2 hle)
  have hdecimg := decode_encode_image (resample buf w.toNat h.toNat) hwnat1
    hwnat2 hhnat1 hhnat2 hlen hle
  exact ⟨rfl, rfl, hlen, hres, hb64, hdecimg⟩

theorem c6_dimension_fidelity_witness :
    (base64_decode (base64_encode [0, 1, 0, 1, 1, 2, 3])
          = .ok [0, 1, 0, 1, 1, 2, 3]
        ∧ decode_image [0, 1, 0, 1, 1, 2, 3] = .ok ⟨1, 1, [1, 2, 3]⟩)
      ∧ ((resample ⟨1, 1, [1, 2, 3]⟩ 1 1).width = 1
        ∧ (resample ⟨1, 1, [1, 2, 3]⟩ 1 1).height = 1
        ∧ (resample ⟨1, 1, [1, 2, 3]⟩ 1 1).data.length = 1 * 1 * 3
        ∧ resize_jpeg (base64_encode [0, 1, 0, 1, 1, 2, 3]) 1 1
            = .ok (base64_encode (encode_image (resample ⟨1, 1, [1, 2, 3]⟩ 1 1)))
        ∧ base64_decode
              (base64_encode (encode_image (resample ⟨1, 1, [1, 2, 3]⟩ 1 1)))
            = .ok (encode_image (resample ⟨1, 1, [1, 2, 3]⟩ 1 1))
        ∧ decode_image (encode_image (resample ⟨1, 1, [1, 2, 3]⟩ 1 1))
            = .ok (resample ⟨1, 1, [1, 2, 3]⟩ 1 1)) :=
  ⟨⟨by decide, by decide⟩,
    c6_dimension_fidelity (base64_encode [0, 1, 0, 1, 1, 2, 3]) 1 1
      [0, 1, 0, 1, 1, 2, 3] ⟨1, 1, [1, 2, 3]⟩ (by decide) (by decide)
      (by decide) (by decide) (by decide) (by decide)⟩

/-- C7: the text encoder is total (a plain function on byte sequences), the
empty byte sequence encodes to exactly the empty string, and every encoder
output is padded to a whole number of four-character blocks. -/
theorem c7_encode_total :
    base64_encode [] = []
      ∧ ∀ b : List Nat, (base64_encode b).length % 4 = 0 := by
  refine ⟨rfl, ?_⟩
  intro b
  unfold base64_encode
  rw [List.length_append, List.length_map, sixbitGroups_length,
    List.length_replicate]
  have h3 : b.length % 3 = 0 ∨ b.length % 3 = 1 ∨ b.length % 3 = 2 := by omega
  rcases h3 with h | h | h <;> rw [h] <;> omega

/-- C8 counterexample: the claim admits inserting embedded spaces, but the
code only strips newline and carriage-return characters (plus leading and
trailing whitespace): inserting a space into the valid input AAAA makes
decoding fail instead of yielding the same bytes. -/
theorem c8_counterexample :
    base64_decode ['A', 'A', 'A', 'A'] = .ok [0, 0, 0]
      ∧ base64_decode ['A', 'A', ' ', 'A', 'A'] = .error .invalidChar := by
  decide

/-- C8 (amended): inserting line-break characters (newline or carriage
return) at arbitrary positions never changes the decode result; embedded
spaces and tabs are not stripped (only leading and trailing whitespace is)
and cause decoding to fail. -/
theorem c8_linebreak_insertion (l l' : List Char) (hins : InsNL l l') :
    base64_decode l' = base64_decode l := by
  unfold base64_decode
  rw [clean_insNL hins]

theorem c8_linebreak_insertion_witness :
    InsNL ['A', 'A', 'A', 'A'] ['A', 'A', '\n', 'A', 'A']
      ∧ base64_decode ['A', 'A', '\n', 'A', 'A']
          = base64_decode ['A', 'A', 'A', 'A'] :=
  ⟨.keep 'A' (.keep 'A' (.ins '\n' (Or.inl rfl)
      (.keep 'A' (.keep 'A' .nil)))),
    c8_linebreak_insertion ['A', 'A', 'A', 'A'] ['A', 'A', '\n', 'A', 'A']
      (.keep 'A' (.keep 'A' (.ins '\n' (Or.inl rfl)
        (.keep 'A' (.keep 'A' .nil)))))⟩

/-- C9: resize_jpeg is deterministic and side-effect-free: in the
state-passing embedding of the call, the result is the same from any two
ambient states, the ambient state is returned unchanged, and the result is
a pure function of the input string and the two dimensions. -/
theorem c9_deterministic (σ : Type) (st1 st2 : σ) (s : List Char) (w h : Int) :
    (resize_jpegSt st1 s w h).2 = (resize_jpegSt st2 s w h).2
      ∧ (resize_jpegSt st1 s w h).1 = st1
      ∧ resize_jpegSt st1 s w h = (st1, resize_jpeg s w h) :=
  ⟨rfl, rfl, rfl⟩

/-- C10: the claim is the in-bounds condition that the erase of
padding-derived bytes needs, and the code violates it: for the input of two
padding characters the alphabet decoding succeeds (both characters decode to
0), producing a single byte, while two trailing padding characters are
counted, so erase(end() - 2, end()) on a one-element vector forms an
iterator before begin() - an out-of-bounds erase, undefined behavior. -/
theorem c10_erase_out_of_bounds :
    sixbitAll (clean ['=', '=']) = some [0, 0]
      ∧ decodeQuads [0, 0] = some [0]
      ∧ padCount (clean ['=', '=']) = 2
      ∧ base64_decode ['=', '='] = .error .eraseOutOfBounds
      ∧ resize_jpeg ['=', '='] 100 100 = .error .undefinedErase := by
  decide

end ImageResizer
